import Mathlib

/-!
# Verification of `gene_report_reader/parser.py`

A shallow embedding of the parsing module of `gene-report-reader`.
Strings are modelled as `List Char`; Python string operations
(`strip`, `lower`, `title`, `splitlines`, substring test `in`) are
translated for the ASCII character range, which is the range exercised
by the parser's regular expressions and tables.

The two regular expressions `_KEY_VALUE_RE` and `_VARIANT_LINE_RE` are
translated into executable backtracking matchers that follow the
Python `re` engine's leftmost, lazy/greedy semantics on single lines
(the parser only ever applies them to individual lines produced by
`str.splitlines`, which contain no newline characters).
-/

set_option maxHeartbeats 1000000

abbrev LC := List Char

/-- Python whitespace for `str.strip` and the regex class `\s`
(ASCII range): space, tab, newline, carriage return, vertical tab,
form feed. -/
def isWs (c : Char) : Bool :=
  c = ' ' || c = '\t' || c = '\n' || c = '\r' || c = '\x0b' || c = '\x0c'

/-- `str.strip()`: drop whitespace from both ends. -/
def pyStrip (s : LC) : LC :=
  ((s.dropWhile isWs).reverse.dropWhile isWs).reverse

/-- `str.lower()` (ASCII). -/
def pyLower (s : LC) : LC := s.map Char.toLower

/-- Worker for `str.title()`: `prevAlpha` records whether the previous
character was a cased (alphabetic) character. -/
def pyTitleAux (prevAlpha : Bool) : LC → LC
  | [] => []
  | c :: rest =>
    (if c.isAlpha then (if prevAlpha then c.toLower else c.toUpper) else c)
      :: pyTitleAux c.isAlpha rest

/-- `str.title()` (ASCII): alphabetic characters are uppercased at word
starts (after a non-alphabetic character or at the beginning) and
lowercased elsewhere. -/
def pyTitle (s : LC) : LC := pyTitleAux false s

/-- Is `pat` a prefix of `hay`? (executable, used for substring test). -/
def hasPre : LC → LC → Bool
  | [], _ => true
  | _ :: _, [] => false
  | p :: ps, h :: hs => p = h && hasPre ps hs

/-- Python's `needle in hay` substring test. -/
def isSubList (needle : LC) : LC → Bool
  | [] => hasPre needle []
  | c :: hs => hasPre needle (c :: hs) || isSubList needle hs

/-- Association-list lookup, modelling `dict.get` / `key in dict`. -/
def assocLookup (k : LC) : List (LC × LC) → Option LC
  | [] => none
  | (k2, v) :: rest => if k = k2 then some v else assocLookup k rest

/-- In-place value update of a Python dict entry: insertion order and
key object are preserved. -/
def updateAssoc (l : List (LC × LC)) (k v : LC) : List (LC × LC) :=
  l.map (fun p => if p.1 = k then (k, v) else p)

/-- `str.splitlines` worker; `cur` holds the current line reversed.
Modelled for the line terminators `\n`, `\r\n` and `\r`. -/
def splitAux : LC → LC → List LC
  | cur, [] => [cur.reverse]
  | cur, '\r' :: '\n' :: rest2 =>
    if rest2.isEmpty then [cur.reverse] else cur.reverse :: splitAux [] rest2
  | cur, '\r' :: rest =>
    if rest.isEmpty then [cur.reverse] else cur.reverse :: splitAux [] rest
  | cur, '\n' :: rest =>
    if rest.isEmpty then [cur.reverse] else cur.reverse :: splitAux [] rest
  | cur, c :: rest => splitAux (c :: cur) rest

/-- `str.splitlines` (for the line terminators `\n`, `\r\n`, `\r`):
the empty string yields no lines; a trailing terminator does not
create an extra empty line. -/
def pySplitlines (s : LC) : List LC :=
  if s.isEmpty then [] else splitAux [] s

example : pySplitlines ("a\nb".toList) = [("a").toList, ("b").toList] := by decide
example : pySplitlines ("a\n".toList) = [("a").toList] := by decide
example : pySplitlines ("".toList) = [] := by decide
example : pySplitlines ("\n".toList) = [[]] := by decide
example : pySplitlines ("a\r\nb\r".toList) = [("a").toList, ("b").toList] := by decide
example : pyStrip ("  a b\t".toList) = ("a b").toList := by decide
example : pyTitle ("likely pathogenic".toList) = ("Likely Pathogenic").toList := by decide
example : pyTitle ("abc3d".toList) = ("Abc3D").toList := by decide
example : isSubList ("bc".toList) ("abcd".toList) = true := by decide
example : isSubList ("bd".toList) ("abcd".toList) = false := by decide

/-- `_CANONICAL_FIELD_NAMES`: the static synonym table mapping
lowercased keys to canonical field names. -/
def _CANONICAL_FIELD_NAMES : List (LC × LC) :=
  [ (("patient").toList, ("Patient Name").toList),
    (("patient name").toList, ("Patient Name").toList),
    (("patient id").toList, ("Patient ID").toList),
    (("id").toList, ("Patient ID").toList),
    (("identifier").toList, ("Patient ID").toList),
    (("dob").toList, ("Date of Birth").toList),
    (("date of birth").toList, ("Date of Birth").toList),
    (("sample").toList, ("Sample ID").toList),
    (("sample id").toList, ("Sample ID").toList),
    (("sample date").toList, ("Sample Date").toList),
    (("collection date").toList, ("Sample Date").toList),
    (("report date").toList, ("Report Date").toList),
    (("gene").toList, ("Gene").toList),
    (("variant").toList, ("Variant").toList),
    (("transcript").toList, ("Transcript").toList),
    (("zygosity").toList, ("Zygosity").toList),
    (("classification").toList, ("Classification").toList),
    (("interpretation").toList, ("Interpretation").toList),
    (("recommendation").toList, ("Recommendations").toList),
    (("recommendations").toList, ("Recommendations").toList),
    (("notes").toList, ("Notes").toList) ]

/-- `_VARIANT_KEYWORDS`: classification keywords, in source order.
The alternation of `_VARIANT_LINE_RE`'s classification group lists the
same keywords in the same order. -/
def _VARIANT_KEYWORDS : List LC :=
  [ ("pathogenic").toList,
    ("likely pathogenic").toList,
    ("variant of uncertain significance").toList,
    ("vus").toList,
    ("benign").toList,
    ("likely benign").toList ]

/-- `_normalise_key`: look the lowercased, stripped key up in the
synonym table (`dict.get`); a truthy (non-empty) hit is returned,
otherwise the stripped key in title case. -/
def _normalise_key (raw : LC) : LC :=
  match assocLookup (pyStrip (pyLower raw)) _CANONICAL_FIELD_NAMES with
  | some c => if c.isEmpty then pyTitle (pyStrip raw) else c
  | none => pyTitle (pyStrip raw)

/-! ## The matcher for `_KEY_VALUE_RE`

`^(?P<key>[\w /()\-]+?)\s*[:|-]\s*(?P<value>.+)$`, applied with
`re.match` to a single line.  The lazy key group takes the shortest
non-empty prefix of key-class characters after which the rest of the
pattern matches.  Both `\s*` gaps are effectively deterministic: the
first is followed by a separator character, which is never whitespace,
so only the maximal whitespace run can succeed; the second is followed
by the greedy `.+$`, so the value is the rest of the line minus its
leading whitespace — except that when the rest is whitespace only,
`.+` backtracks to consume the final character. -/

/-- The regex class `[\w /()\-]` (ASCII `\w`). -/
def isKeyCh (c : Char) : Bool :=
  c.isAlpha || c.isDigit || c = '_' || c = ' ' || c = '/' || c = '(' || c = ')' || c = '-'

/-- The regex class `[:|-]` of key/value separators. -/
def isKvSep (c : Char) : Bool :=
  c = ':' || c = '|' || c = '-'

/-- Match `\s*[:|-]\s*(?P<value>.+)$` against the part of the line
after the key group; returns the value group. -/
def restMatch (rest : LC) : Option LC :=
  match rest.dropWhile isWs with
  | [] => none
  | c :: rest2 =>
    if isKvSep c then
      let v := rest2.dropWhile isWs
      if v.isEmpty then
        match rest2.getLast? with
        | some d => some [d]
        | none => none
      else some v
    else none

/-- Lazy scan for the key group: after each key-class character, first
try to match the rest of the pattern, then extend the key. -/
def kvMatchAux (acc : LC) : LC → Option (LC × LC)
  | [] => none
  | c :: rest =>
    if isKeyCh c then
      match restMatch rest with
      | some v => some (acc ++ [c], v)
      | none => kvMatchAux (acc ++ [c]) rest
    else none

/-- `_KEY_VALUE_RE.match(line)`: the (key, value) groups, if any. -/
def kvMatch (line : LC) : Option (LC × LC) := kvMatchAux [] line

example : kvMatch ("Patient Name: Jane Doe".toList)
    = some (("Patient Name").toList, ("Jane Doe").toList) := by decide
example : kvMatch ("Sample Date - 2024-05-01".toList)
    = some (("Sample Date").toList, ("2024-05-01").toList) := by decide
example : kvMatch ("well-known: x".toList)
    = some (("well").toList, ("known: x").toList) := by decide
example : kvMatch ("a:".toList) = none := by decide
example : kvMatch ("no separator here".toList) = none := by decide
example : kvMatch ("a :\tb".toList) = some (("a").toList, ("b").toList) := by decide

/-! ## The matcher for `_VARIANT_LINE_RE`

`^(?P<gene>[A-Z0-9]+)[\s,:;-]+(?P<variant>c\.[^\s]+|p\.[^\s]+|exon[^\s]+|g\.[^\s]+).*?(?P<classification>...)`
with `re.IGNORECASE`, applied with `re.match` to a single line.

The greedy gene and separator runs are deterministic: shortening the
gene run leaves an alphanumeric character where a separator is
required, and shortening the separator run leaves a separator
character where a variant token (starting with `c`/`p`/`e`/`g`) is
required; neither can succeed, so only the maximal runs need to be
considered.  The greedy `[^\s]+` tail of the variant token and the
lazy `.*?` gap before the classification group do backtrack and are
modelled with explicit search. -/

/-- The regex class `[A-Z0-9]` under `re.IGNORECASE` (ASCII). -/
def isGeneCh (c : Char) : Bool := c.isAlpha || c.isDigit

/-- The regex class `[\s,:;-]`. -/
def isVarSep (c : Char) : Bool :=
  isWs c || c = ',' || c = ':' || c = ';' || c = '-'

/-- Case-insensitive literal prefix test: `pat` is given lowercase. -/
def ciHasPre (pat s : LC) : Bool :=
  decide ((s.take pat.length).map Char.toLower = pat)

/-- Try the classification alternatives, in the order they appear in
the regex, at the current position; returns the matched text. -/
def matchKeywordAt (s : LC) : Option LC :=
  _VARIANT_KEYWORDS.findSome? fun kw =>
    if ciHasPre kw s then some (s.take kw.length) else none

/-- `.*?(?P<classification>...)`: lazily scan forward (never across a
newline, which `.` does not match) for the first position where a
classification alternative matches. -/
def scanKeyword : LC → Option LC
  | [] => matchKeywordAt []
  | c :: rest =>
    match matchKeywordAt (c :: rest) with
    | some r => some r
    | none => if c = '\n' then none else scanKeyword rest

/-- Backtracking for the greedy `[^\s]+` tail of the variant token:
try tail length `j`, longest first (at least 1), and for each length
let the lazy scan look for a classification keyword after it.
Returns the variant group (token of `plen + j` characters of `s`) and
the classification group. -/
def tryTail (s : LC) (plen : Nat) : Nat → Option (LC × LC)
  | 0 => none
  | j + 1 =>
    match scanKeyword (s.drop (plen + (j + 1))) with
    | some cls => some (s.take (plen + (j + 1)), cls)
    | none => tryTail s plen j

/-- The literal starts of the variant-token alternatives, in regex
order: `c\.`, `p\.`, `exon`, `g\.`. -/
def variantPres : List LC :=
  [("c.").toList, ("p.").toList, ("exon").toList, ("g.").toList]

/-- Match `(?P<variant>c\.[^\s]+|p\.[^\s]+|exon[^\s]+|g\.[^\s]+)` at
the start of `s` followed by `.*?(?P<classification>...)`. -/
def matchVariantTok (s : LC) : Option (LC × LC) :=
  variantPres.findSome? fun pre =>
    if ciHasPre pre s then
      tryTail s pre.length ((s.drop pre.length).takeWhile (fun c => !(isWs c))).length
    else none

/-- `_VARIANT_LINE_RE.match(line)`: the (gene, variant, classification)
groups, if any. -/
def variantMatch (line : LC) : Option (LC × LC × LC) :=
  let gene := line.takeWhile isGeneCh
  if gene.isEmpty then none
  else
    let rest1 := line.drop gene.length
    let sep := rest1.takeWhile isVarSep
    if sep.isEmpty then none
    else
      match matchVariantTok (rest1.drop sep.length) with
      | some (v, cls) => some (gene, v, cls)
      | none => none

example : variantMatch ("BRCA1 c.68_69delAG Pathogenic mutation detected".toList)
    = some (("BRCA1").toList, ("c.68_69delAG").toList, ("Pathogenic").toList) := by decide
example : variantMatch ("TP53 p.R175H likely pathogenic".toList)
    = some (("TP53").toList, ("p.R175H").toList, ("likely pathogenic").toList) := by decide
example : variantMatch ("BRCA1 c.1vus".toList)
    = some (("BRCA1").toList, ("c.1").toList, ("vus").toList) := by decide
example : variantMatch ("hello world".toList) = none := by decide
example : variantMatch ("BRCA1 c.68G".toList) = none := by decide
example : variantMatch ("BRCA1: c.68G pathogenic".toList)
    = some (("BRCA1").toList, ("c.68G").toList, ("pathogenic").toList) := by decide

example : kvMatch ("a - b".toList) = some (("a").toList, ("b").toList) := by decide
example : kvMatch ("(x) - y".toList) = some (("(x)").toList, ("y").toList) := by decide
example : kvMatch ("a::b".toList) = some (("a").toList, (":b").toList) := by decide
example : kvMatch ("a :- b".toList) = some (("a").toList, ("- b").toList) := by decide
example : kvMatch ("x: -".toList) = some (("x").toList, ("-").toList) := by decide
example : kvMatch ("_weird |  val".toList) = some (("_weird").toList, ("val").toList) := by decide
example : kvMatch ("a-".toList) = none := by decide
example : variantMatch ("brca1,c.5T>a BENIGN".toList)
    = some (("brca1").toList, ("c.5T>a").toList, ("BENIGN").toList) := by decide
example : variantMatch ("GENE exon7del likely benign stuff".toList)
    = some (("GENE").toList, ("exon7del").toList, ("likely benign").toList) := by decide
example : variantMatch ("A1 - g.123 vus".toList)
    = some (("A1").toList, ("g.123").toList, ("vus").toList) := by decide
example : variantMatch ("X c.benign".toList) = none := by decide
example : variantMatch ("G2 c.1 vusty".toList)
    = some (("G2").toList, ("c.1").toList, ("vus").toList) := by decide
example : variantMatch ("AB c.1 pathogenic likely pathogenic".toList)
    = some (("AB").toList, ("c.1").toList, ("pathogenic").toList) := by decide

/-! ## Line extraction, merging, report parsing, rendering -/

/-- The body of the per-line loop of `_extract_key_values_from_lines`:
strip the line; skip it when empty; otherwise try `_KEY_VALUE_RE`,
then `_VARIANT_LINE_RE`, then the keyword fallback to `Notes`. -/
def extractLine (rawLine : LC) : List (LC × LC) :=
  let line := pyStrip rawLine
  if line.isEmpty then []
  else
    match kvMatch line with
    | some (k, v) => [(k, v)]
    | none =>
      match variantMatch line with
      | some (g, v, cls) =>
        [(("Gene").toList, g), (("Variant").toList, v),
         (("Classification").toList, pyTitle cls)]
      | none =>
        if _VARIANT_KEYWORDS.any (fun kw => isSubList kw (pyLower line)) then
          [(("Notes").toList, line)]
        else []

/-- `_extract_key_values_from_lines`: the loop appends each line's
pairs in order. -/
def _extract_key_values_from_lines : List LC → List (LC × LC)
  | [] => []
  | l :: rest => extractLine l ++ _extract_key_values_from_lines rest

/-- The loop of `_merge_key_value_pairs` over an ordered association
list standing for the insertion-ordered Python dict `merged`. -/
def mergeAux (merged : List (LC × LC)) : List (LC × LC) → List (LC × LC)
  | [] => merged
  | (k, v) :: rest =>
    let key := _normalise_key k
    let value := pyStrip v
    if value.isEmpty then mergeAux merged rest
    else
      match assocLookup key merged with
      | some existing =>
        if isSubList (pyLower value) (pyLower existing) then mergeAux merged rest
        else mergeAux (updateAssoc merged key (existing ++ ("; ").toList ++ value)) rest
      | none => mergeAux (merged ++ [(key, value)]) rest

/-- `_merge_key_value_pairs`. -/
def _merge_key_value_pairs (pairs : List (LC × LC)) : List (LC × LC) :=
  mergeAux [] pairs

/-- `format_markdown_table`. -/
def format_markdown_table (pairs : List (LC × LC)) : LC :=
  if pairs.isEmpty then
    ("| Field | Value |\n| --- | --- |\n| _(no data)_ | |").toList
  else
    let header := ("| Field | Value |\n| --- | --- |").toList
    let rows := pairs.map fun p =>
      ("| ").toList ++ p.1 ++ (" | ").toList ++ p.2 ++ (" |").toList
    List.intercalate (("\n").toList) (header :: rows)

/-- The dataclass `ParsedReport`. -/
structure ParsedReport where
  key_values : List (LC × LC)
  deriving DecidableEq

/-- `ParsedReport.to_markdown`. -/
def ParsedReport.to_markdown (r : ParsedReport) : LC :=
  format_markdown_table r.key_values

/-- `parse_report_text`: split into lines, extract pairs, fall back to
a single `Notes` pair holding the cleaned text when nothing was
extracted, then merge. -/
def parse_report_text (text : LC) : ParsedReport :=
  let lines := pySplitlines text
  let pairs := _extract_key_values_from_lines lines
  let pairs2 :=
    if pairs.isEmpty then
      let cleaned :=
        List.intercalate ((" ").toList)
          ((lines.map pyStrip).filter (fun l => !(l.isEmpty)))
      if cleaned.isEmpty then pairs else pairs ++ [(("Notes").toList, cleaned)]
    else pairs
  ⟨_merge_key_value_pairs pairs2⟩

example :
    (parse_report_text
      (("\nPatient Name: Jane Doe\nPatient ID: 12345\nSample Date - 2024-05-01\nBRCA1 c.68_69delAG Pathogenic mutation detected\nRecommendations: Consider familial testing.\n").toList)).key_values
    = [ (("Patient Name").toList, ("Jane Doe").toList),
        (("Patient ID").toList, ("12345").toList),
        (("Sample Date").toList, ("2024-05-01").toList),
        (("Gene").toList, ("BRCA1").toList),
        (("Variant").toList, ("c.68_69delAG").toList),
        (("Classification").toList, ("Pathogenic").toList),
        (("Recommendations").toList, ("Consider familial testing.").toList) ] := by decide

/-! ## Helper lemmas -/

theorem assocLookup_some_mem {k v : LC} : ∀ {l : List (LC × LC)},
    assocLookup k l = some v → (k, v) ∈ l := by
  intro l
  induction l with
  | nil => intro h; simp [assocLookup] at h
  | cons p rest ih =>
    intro h
    rw [assocLookup] at h
    split at h
    · rename_i heq
      cases h
      cases p
      simp_all
    · exact List.mem_cons_of_mem _ (ih h)

theorem canonical_values_ne_empty :
    ∀ p ∈ _CANONICAL_FIELD_NAMES, p.2.isEmpty = false := by decide

theorem intercalate_cons_of_ne_nil (s x : LC) {l : List LC} (h : l ≠ []) :
    List.intercalate s (x :: l) = x ++ s ++ List.intercalate s l := by
  cases l with
  | nil => exact absurd rfl h
  | cons y ys =>
    simp [List.intercalate, List.intersperse, List.append_assoc]

/-- Claim C10: `format_markdown_table` renders the two header lines
`| Field | Value |` and `| --- | --- |` followed by exactly one row
`| key | value |` per pair in list order; the empty list yields the
fixed placeholder table containing `_(no data)_`; and
`ParsedReport.to_markdown` equals `format_markdown_table` applied to
`key_values`. -/
theorem format_markdown_table_spec (pairs : List (LC × LC)) (r : ParsedReport) :
    (pairs ≠ [] →
      format_markdown_table pairs
        = List.intercalate (("\n").toList)
            ((("| Field | Value |").toList) :: (("| --- | --- |").toList) ::
              pairs.map (fun p =>
                ("| ").toList ++ p.1 ++ (" | ").toList ++ p.2 ++ (" |").toList)))
    ∧ format_markdown_table []
        = ("| Field | Value |\n| --- | --- |\n| _(no data)_ | |").toList
    ∧ r.to_markdown = format_markdown_table r.key_values := by
  refine ⟨?_, rfl, rfl⟩
  intro hne
  have hmap : pairs.map (fun p =>
      ("| ").toList ++ p.1 ++ (" | ").toList ++ p.2 ++ (" |").toList) ≠ [] := by
    simpa using hne
  rw [format_markdown_table]
  rw [if_neg (by simpa [List.isEmpty_iff] using hne)]
  rw [intercalate_cons_of_ne_nil _ _ hmap,
    intercalate_cons_of_ne_nil _ _ (List.cons_ne_nil _ _),
    intercalate_cons_of_ne_nil _ _ hmap]
  have hsplit : ("| Field | Value |\n| --- | --- |").toList
      = ("| Field | Value |").toList ++ ("\n").toList ++ ("| --- | --- |").toList := by
    decide
  rw [hsplit]
  simp [List.append_assoc]

theorem format_markdown_table_spec_witness :
    format_markdown_table [(("Gene").toList, ("BRCA1").toList)]
      = List.intercalate (("\n").toList)
          ((("| Field | Value |").toList) :: (("| --- | --- |").toList) ::
            [(("Gene").toList, ("BRCA1").toList)].map (fun p =>
              ("| ").toList ++ p.1 ++ (" | ").toList ++ p.2 ++ (" |").toList)) :=
  (format_markdown_table_spec [(("Gene").toList, ("BRCA1").toList)] ⟨[]⟩).1
    (by decide)

/-- Claim C7: extraction is a per-line map — the pairs extracted from
a concatenation of two line sequences are the pairs of the first
followed by the pairs of the second, and a blank or whitespace-only
line contributes no pairs. -/
theorem extract_per_line_map (L1 L2 : List LC) :
    _extract_key_values_from_lines (L1 ++ L2)
      = _extract_key_values_from_lines L1 ++ _extract_key_values_from_lines L2
    ∧ ∀ l : LC, pyStrip l = [] → extractLine l = [] := by
  constructor
  · induction L1 with
    | nil => simp [_extract_key_values_from_lines]
    | cons l rest ih =>
      have hc : (l :: rest) ++ L2 = l :: (rest ++ L2) := rfl
      rw [hc, _extract_key_values_from_lines, _extract_key_values_from_lines,
        ih, List.append_assoc]
  · intro l h
    simp [extractLine, h]

theorem extract_per_line_map_witness :
    _extract_key_values_from_lines
        ([("Gene: BRCA1").toList, ("x").toList] ++ [("   ").toList])
      = _extract_key_values_from_lines [("Gene: BRCA1").toList, ("x").toList]
        ++ _extract_key_values_from_lines [("   ").toList]
    ∧ extractLine (("   ").toList) = [] :=
  ⟨(extract_per_line_map [("Gene: BRCA1").toList, ("x").toList] [("   ").toList]).1,
   (extract_per_line_map [] []).2 (("   ").toList) (by decide)⟩

/-- Claim C3: the per-line rules apply in fixed priority order — a
successful key-separator-value match yields exactly that pair; only
when it fails is the gene/variant/classification pattern consulted,
yielding exactly its three pairs; only when both fail is a line with a
classification keyword filed under `Notes`.  A line handled by an
earlier rule contributes no pairs from a later rule. -/
theorem extract_rule_priority (rawLine : LC) :
    (∀ k v, kvMatch (pyStrip rawLine) = some (k, v) →
      extractLine rawLine = [(k, v)])
    ∧ (kvMatch (pyStrip rawLine) = none →
        ∀ g v c, variantMatch (pyStrip rawLine) = some (g, v, c) →
          extractLine rawLine
            = [(("Gene").toList, g), (("Variant").toList, v),
               (("Classification").toList, pyTitle c)])
    ∧ (kvMatch (pyStrip rawLine) = none → variantMatch (pyStrip rawLine) = none →
        (_VARIANT_KEYWORDS.any fun kw => isSubList kw (pyLower (pyStrip rawLine))) = true →
          extractLine rawLine = [(("Notes").toList, pyStrip rawLine)]) := by
  refine ⟨?_, ?_, ?_⟩
  · intro k v hkv
    have hne : (pyStrip rawLine).isEmpty = false := by
      cases hs : pyStrip rawLine with
      | nil => rw [hs] at hkv; simp [kvMatch, kvMatchAux] at hkv
      | cons a t => simp
    simp [extractLine, hne, hkv]
  · intro hkv g v c hvar
    have hne : (pyStrip rawLine).isEmpty = false := by
      cases hs : pyStrip rawLine with
      | nil =>
        rw [hs] at hvar
        simp [variantMatch, List.takeWhile] at hvar
      | cons a t => simp
    simp [extractLine, hne, hkv, hvar]
  · intro hkv hvar hkw
    have hne : (pyStrip rawLine).isEmpty = false := by
      cases hs : pyStrip rawLine with
      | nil => rw [hs] at hkw; simp [_VARIANT_KEYWORDS, isSubList, hasPre] at hkw
      | cons a t => simp
    simp [extractLine, hne, hkv, hvar, hkw]

theorem extract_rule_priority_witness :
    extractLine (("Patient Name: Jane Doe").toList)
      = [(("Patient Name").toList, ("Jane Doe").toList)]
    ∧ extractLine (("TP53 p.R175H likely pathogenic").toList)
      = [(("Gene").toList, ("TP53").toList),
         (("Variant").toList, ("p.R175H").toList),
         (("Classification").toList, pyTitle (("likely pathogenic").toList))]
    ∧ extractLine (("The variant was classified as benign").toList)
      = [(("Notes").toList, ("The variant was classified as benign").toList)] := by
  refine ⟨?_, ?_, ?_⟩
  · exact (extract_rule_priority (("Patient Name: Jane Doe").toList)).1
      (("Patient Name").toList) (("Jane Doe").toList) (by decide)
  · exact (extract_rule_priority (("TP53 p.R175H likely pathogenic").toList)).2.1
      (by decide) (("TP53").toList) (("p.R175H").toList)
      (("likely pathogenic").toList) (by decide)
  · have h := (extract_rule_priority
      (("The variant was classified as benign").toList)).2.2
      (by decide) (by decide) (by decide)
    simpa using h

/-- Claim C6: a line matching neither the key-separator-value pattern
nor the gene/variant/classification pattern, but containing a
classification keyword case-insensitively, yields exactly one pair
filing the (stripped) line under the `Notes` field. -/
theorem keyword_line_filed_as_note (rawLine : LC)
    (hkv : kvMatch (pyStrip rawLine) = none)
    (hvar : variantMatch (pyStrip rawLine) = none)
    (hkw : (_VARIANT_KEYWORDS.any fun kw => isSubList kw (pyLower (pyStrip rawLine))) = true) :
    extractLine rawLine = [(("Notes").toList, pyStrip rawLine)] := by
  have hne : (pyStrip rawLine).isEmpty = false := by
    cases hs : pyStrip rawLine with
    | nil => rw [hs] at hkw; simp [_VARIANT_KEYWORDS, isSubList, hasPre] at hkw
    | cons a t => simp
  simp [extractLine, hne, hkv, hvar, hkw]

theorem keyword_line_filed_as_note_witness :
    extractLine (("Result considered LIKELY BENIGN overall").toList)
      = [(("Notes").toList, ("Result considered LIKELY BENIGN overall").toList)] := by
  have h := keyword_line_filed_as_note
    (("Result considered LIKELY BENIGN overall").toList)
    (by decide) (by decide) (by decide)
  simpa using h

/-- Claim C5: a raw key whose lowercased, stripped form is in the
static synonym table normalizes to the table's canonical field name,
so synonymous raw keys fall together under one field. -/
theorem normalise_key_canonical (raw c : LC)
    (h : assocLookup (pyStrip (pyLower raw)) _CANONICAL_FIELD_NAMES = some c) :
    _normalise_key raw = c := by
  have hmem := assocLookup_some_mem h
  have hne := canonical_values_ne_empty _ hmem
  rw [_normalise_key, h]
  simp only at hne
  simp [hne]

theorem normalise_key_canonical_witness :
    _normalise_key (("DOB ").toList) = ("Date of Birth").toList
    ∧ _normalise_key (("date of birth").toList) = ("Date of Birth").toList :=
  ⟨normalise_key_canonical (("DOB ").toList) (("Date of Birth").toList) (by decide),
   normalise_key_canonical (("date of birth").toList) (("Date of Birth").toList)
     (by decide)⟩

theorem dropWhile_head_false {p : Char → Bool} {c : Char} {t : LC} :
    ∀ {l : LC}, l.dropWhile p = c :: t → p c = false := by
  intro l
  induction l with
  | nil => intro h; simp [List.dropWhile] at h
  | cons a l ih =>
    intro h
    rw [List.dropWhile_cons] at h
    split at h
    · exact ih h
    · cases h; simpa using ‹¬ p c = true›

theorem pyStrip_prefix_dropWhile (s : LC) :
    ∃ m, List.dropWhile isWs s = pyStrip s ++ m := by
  refine ⟨(List.takeWhile isWs (List.dropWhile isWs s).reverse).reverse, ?_⟩
  rw [pyStrip]
  conv_lhs => rw [← List.reverse_reverse (List.dropWhile isWs s)]
  conv_lhs => rw [← List.takeWhile_append_dropWhile (p := isWs)
    (l := (List.dropWhile isWs s).reverse)]
  rw [List.reverse_append]

theorem pyStrip_head_not_ws {s : LC} {c : Char} {t : LC}
    (h : pyStrip s = c :: t) : isWs c = false := by
  obtain ⟨m, hm⟩ := pyStrip_prefix_dropWhile s
  rw [h] at hm
  exact dropWhile_head_false hm

theorem pyStrip_getLast_not_ws {s : LC} {c : Char}
    (h : (pyStrip s).getLast? = some c) : isWs c = false := by
  rw [pyStrip, List.getLast?_reverse] at h
  cases hd : List.dropWhile isWs (List.dropWhile isWs s).reverse with
  | nil => rw [hd] at h; simp at h
  | cons a t =>
    rw [hd] at h
    simp only [List.head?_cons, Option.some.injEq] at h
    subst h
    exact dropWhile_head_false hd

theorem pyStrip_eq_nil_iff {s : LC} :
    pyStrip s = [] ↔ ∀ c ∈ s, isWs c = true := by
  rw [pyStrip]
  rw [List.reverse_eq_nil_iff, List.dropWhile_eq_nil_iff]
  constructor
  · intro h c hc
    rcases List.mem_append.mp (by
        rw [List.takeWhile_append_dropWhile (p := isWs) (l := s)]; exact hc :
        c ∈ List.takeWhile isWs s ++ List.dropWhile isWs s) with h1 | h1
    · exact List.mem_takeWhile_imp h1
    · exact h c (List.mem_reverse.mpr h1)
  · intro h c hc
    apply h
    have : c ∈ List.dropWhile isWs s := List.mem_reverse.mp hc
    have hsub : List.dropWhile isWs s <:+ s :=
      ⟨List.takeWhile isWs s, List.takeWhile_append_dropWhile isWs s⟩
    exact hsub.subset this

theorem pyStrip_eq_self {s : LC}
    (h1 : ∀ c ∈ s.head?, isWs c = false)
    (h2 : ∀ c ∈ s.getLast?, isWs c = false) : pyStrip s = s := by
  cases s with
  | nil => rfl
  | cons a t =>
    have ha : isWs a = false := h1 a rfl
    have hdrop : List.dropWhile isWs (a :: t) = a :: t := by
      rw [List.dropWhile_cons, if_neg (by simp [ha])]
    rw [pyStrip, hdrop]
    cases hr : (a :: t).reverse with
    | nil => simp at hr
    | cons b r =>
      have hb : (a :: t).getLast? = some b := by
        rw [List.getLast?_eq_head?_reverse, hr, List.head?_cons]
      have hbw : isWs b = false := h2 b hb
      rw [List.dropWhile_cons, if_neg (by simp [hbw]), ← hr,
        List.reverse_reverse]

theorem pyStrip_idem (s : LC) : pyStrip (pyStrip s) = pyStrip s := by
  cases hs : pyStrip s with
  | nil => rfl
  | cons a t =>
    rw [← hs]
    apply pyStrip_eq_self
    · intro c hc
      rw [hs] at hc
      simp only [List.head?_cons, Option.mem_def, Option.some.injEq] at hc
      subst hc
      exact pyStrip_head_not_ws hs
    · intro c hc
      exact pyStrip_getLast_not_ws hc

theorem pyStrip_ne_nil_of_head {c : Char} {t : LC} (h : isWs c = false) :
    pyStrip (c :: t) ≠ [] := by
  intro hnil
  have := pyStrip_eq_nil_iff.mp hnil c (by simp)
  rw [h] at this
  exact Bool.false_ne_true this

theorem ws_cases {c : Char} (h : isWs c = true) :
    c = ' ' ∨ c = '\t' ∨ c = '\n' ∨ c = '\r' ∨ c = '\x0b' ∨ c = '\x0c' := by
  have h2 := h
  simp only [isWs, Bool.or_eq_true, decide_eq_true_eq] at h2
  tauto

theorem ws_toLower {c : Char} (h : isWs c = true) : Char.toLower c = c := by
  rcases ws_cases h with rfl | rfl | rfl | rfl | rfl | rfl <;> decide

theorem not_ws_of_toLower {c k : Char} (h : Char.toLower c = k)
    (hk : isWs k = false) : isWs c = false := by
  by_contra hw
  simp only [Bool.not_eq_false] at hw
  rw [ws_toLower hw] at h
  subst h
  rw [hw] at hk
  exact absurd hk (by decide)

theorem not_ws_toUpper_of_toLower {c k : Char} (h : Char.toLower c = k)
    (hup : isWs (Char.toUpper k) = false) : isWs (Char.toUpper c) = false := by
  rw [Char.toLower] at h
  by_cases hc : Char.toNat c ≥ 65 ∧ Char.toNat c ≤ 90
  · have h1 : Char.toUpper c = c := by
      rw [Char.toUpper, if_neg]
      intro hcon
      omega
    rw [h1]
    by_contra hw
    simp only [Bool.not_eq_false] at hw
    rcases ws_cases hw with rfl | rfl | rfl | rfl | rfl | rfl <;>
      exact absurd hc (by decide)
  · rw [if_neg hc] at h
    subst h
    exact hup

theorem not_ws_of_gene {c : Char} (h : isGeneCh c = true) : isWs c = false := by
  by_contra hw
  simp only [Bool.not_eq_false] at hw
  rcases ws_cases hw with rfl | rfl | rfl | rfl | rfl | rfl <;>
    exact absurd h (by decide)

theorem lastNonWs_tail {a : Char} {t : LC}
    (h : ∀ c ∈ (a :: t).getLast?, isWs c = false) :
    ∀ c ∈ t.getLast?, isWs c = false := by
  cases t with
  | nil => intro c hc; simp at hc
  | cons b r => intro c hc; exact h c (by rw [List.getLast?_cons_cons]; exact hc)

theorem lastNonWs_dropWhile {p : Char → Bool} {l : LC}
    (h : ∀ c ∈ l.getLast?, isWs c = false) :
    ∀ c ∈ (l.dropWhile p).getLast?, isWs c = false := by
  intro c hc
  apply h
  cases hd : l.dropWhile p with
  | nil => rw [hd] at hc; simp at hc
  | cons a t =>
    rw [hd] at hc
    rw [← List.takeWhile_append_dropWhile p l, hd,
      List.getLast?_append_of_ne_nil _ (by simp)]
    exact hc

theorem restMatch_good {rest v : LC}
    (hlast : ∀ c ∈ rest.getLast?, isWs c = false)
    (h : restMatch rest = some v) :
    ∃ c t, v = c :: t ∧ isWs c = false := by
  rw [restMatch] at h
  cases hd : rest.dropWhile isWs with
  | nil => rw [hd] at h; simp at h
  | cons c rest2 =>
    rw [hd] at h
    simp only at h
    split at h
    · by_cases hv : (rest2.dropWhile isWs).isEmpty
      · rw [if_pos hv] at h
        exfalso
        cases hg : rest2.getLast? with
        | none => rw [hg] at h; simp at h
        | some d =>
          have hdw : ∀ c ∈ rest2.getLast?, isWs c = false := by
            have h1 : ∀ c ∈ (rest.dropWhile isWs).getLast?, isWs c = false :=
              lastNonWs_dropWhile hlast
            rw [hd] at h1
            exact lastNonWs_tail h1
          have hdm : d ∈ rest2 := List.mem_of_getLast?_eq_some hg
          have hws : isWs d = true := by
            have := List.dropWhile_eq_nil_iff.mp (by simpa using hv)
            exact this d hdm
          have := hdw d (by rw [hg]; rfl)
          rw [hws] at this
          exact absurd this (by decide)
      · rw [if_neg hv] at h
        cases h
        cases hv2 : rest2.dropWhile isWs with
        | nil => rw [hv2] at hv; simp at hv
        | cons c2 t2 =>
          exact ⟨c2, t2, rfl, dropWhile_head_false hv2⟩
    · simp at h

theorem kvMatchAux_good :
    ∀ {l : LC} {acc k v : LC},
      (∀ c ∈ l.getLast?, isWs c = false) →
      kvMatchAux acc l = some (k, v) →
      ∃ c t, v = c :: t ∧ isWs c = false := by
  intro l
  induction l with
  | nil => intro acc k v _ h; simp [kvMatchAux] at h
  | cons a rest ih =>
    intro acc k v hlast h
    rw [kvMatchAux] at h
    split at h
    · cases hr : restMatch rest with
      | some v2 =>
        rw [hr] at h
        cases h
        exact restMatch_good (lastNonWs_tail hlast) hr
      | none =>
        rw [hr] at h
        exact ih (lastNonWs_tail hlast) h
    · simp at h

theorem good_take_of_ciHasPre {s pre : LC} {k : Char} (hp : pre.head? = some k)
    (hk : isWs k = false) (hu : isWs (Char.toUpper k) = false)
    (hci : ciHasPre pre s = true) :
    ∃ c t, s.take pre.length = c :: t ∧ isWs c = false
      ∧ isWs (Char.toUpper c) = false := by
  cases pre with
  | nil => simp at hp
  | cons p0 ps =>
    simp only [List.head?_cons, Option.some.injEq] at hp
    subst hp
    rw [ciHasPre] at hci
    have hci2 := of_decide_eq_true hci
    cases s with
    | nil => simp at hci2
    | cons c s2 =>
      simp only [List.length_cons, List.take_succ_cons, List.map_cons] at hci2
      have hc : Char.toLower c = p0 := by
        have := congrArg List.head? hci2
        simpa using this
      exact ⟨c, s2.take ps.length, by simp, not_ws_of_toLower hc hk,
        not_ws_toUpper_of_toLower hc hu⟩

theorem matchKeywordAt_good {s r : LC} (h : matchKeywordAt s = some r) :
    ∃ c t, r = c :: t ∧ isWs c = false ∧ isWs (Char.toUpper c) = false := by
  rw [matchKeywordAt] at h
  obtain ⟨kw, hmem, hif⟩ := List.exists_of_findSome?_eq_some h
  by_cases hci : ciHasPre kw s = true
  · rw [if_pos hci] at hif
    have hr : r = s.take kw.length := by
      cases hif; rfl
    subst hr
    simp only [_VARIANT_KEYWORDS, List.mem_cons, List.not_mem_nil, or_false]
      at hmem
    rcases hmem with rfl | rfl | rfl | rfl | rfl | rfl
    · exact good_take_of_ciHasPre (k := 'p') (by decide) (by decide) (by decide) hci
    · exact good_take_of_ciHasPre (k := 'l') (by decide) (by decide) (by decide) hci
    · exact good_take_of_ciHasPre (k := 'v') (by decide) (by decide) (by decide) hci
    · exact good_take_of_ciHasPre (k := 'v') (by decide) (by decide) (by decide) hci
    · exact good_take_of_ciHasPre (k := 'b') (by decide) (by decide) (by decide) hci
    · exact good_take_of_ciHasPre (k := 'l') (by decide) (by decide) (by decide) hci
  · rw [if_neg hci] at hif
    simp at hif

theorem scanKeyword_good : ∀ {s r : LC}, scanKeyword s = some r →
    ∃ c t, r = c :: t ∧ isWs c = false ∧ isWs (Char.toUpper c) = false := by
  intro s
  induction s with
  | nil => intro r h; rw [scanKeyword] at h; exact matchKeywordAt_good h
  | cons c rest ih =>
    intro r h
    rw [scanKeyword] at h
    cases hm : matchKeywordAt (c :: rest) with
    | some r0 =>
      rw [hm] at h
      cases h
      exact matchKeywordAt_good hm
    | none =>
      rw [hm] at h
      by_cases hc : c = '\n'
      · rw [if_pos hc] at h; simp at h
      · rw [if_neg hc] at h; exact ih h

theorem tryTail_shape {s cls : LC} {plen : Nat} :
    ∀ {j : Nat} {v : LC}, tryTail s plen j = some (v, cls) →
      ∃ m, 1 ≤ m ∧ v = s.take (plen + m)
        ∧ scanKeyword (s.drop (plen + m)) = some cls := by
  intro j
  induction j with
  | zero => intro v h; simp [tryTail] at h
  | succ i ih =>
    intro v h
    rw [tryTail] at h
    cases hs : scanKeyword (s.drop (plen + (i + 1))) with
    | some c0 =>
      rw [hs] at h
      cases h
      exact ⟨i + 1, by omega, rfl, hs⟩
    | none =>
      rw [hs] at h
      exact ih h

theorem matchVariantTok_good {s v cls : LC}
    (h : matchVariantTok s = some (v, cls)) :
    (∃ c t, v = c :: t ∧ isWs c = false)
      ∧ (∃ c t, cls = c :: t ∧ isWs c = false
          ∧ isWs (Char.toUpper c) = false) := by
  rw [matchVariantTok] at h
  obtain ⟨pre, hmem, hif⟩ := List.exists_of_findSome?_eq_some h
  by_cases hci : ciHasPre pre s = true
  · rw [if_pos hci] at hif
    obtain ⟨m, hm1, hv, hscan⟩ := tryTail_shape hif
    constructor
    · have hgood : ∃ c t, s.take pre.length = c :: t ∧ isWs c = false
          ∧ isWs (Char.toUpper c) = false := by
        simp only [variantPres, List.mem_cons, List.not_mem_nil, or_false]
          at hmem
        rcases hmem with rfl | rfl | rfl | rfl
        · exact good_take_of_ciHasPre (k := 'c') (by decide) (by decide) (by decide) hci
        · exact good_take_of_ciHasPre (k := 'p') (by decide) (by decide) (by decide) hci
        · exact good_take_of_ciHasPre (k := 'e') (by decide) (by decide) (by decide) hci
        · exact good_take_of_ciHasPre (k := 'g') (by decide) (by decide) (by decide) hci
      obtain ⟨c, t, hct, hcw, _⟩ := hgood
      cases s with
      | nil => rw [List.take_nil] at hct; cases hct
      | cons a s2 =>
        have hca : c = a := by
          cases hp : pre.length with
          | zero => rw [hp] at hct; simp at hct
          | succ n =>
            rw [hp, List.take_succ_cons] at hct
            cases hct; rfl
        subst hca
        cases hpm : pre.length + m with
        | zero => omega
        | succ n2 =>
          refine ⟨c, s2.take n2, ?_, hcw⟩
          rw [hv, hpm, List.take_succ_cons]
    · exact scanKeyword_good hscan
  · rw [if_neg hci] at hif
    simp at hif

theorem pyTitle_good {v : LC} {c : Char} {t : LC} (hv : v = c :: t)
    (h1 : isWs c = false) (h2 : isWs (Char.toUpper c) = false) :
    ∃ c2 t2, pyTitle v = c2 :: t2 ∧ isWs c2 = false := by
  subst hv
  rw [pyTitle, pyTitleAux]
  by_cases ha : c.isAlpha = true
  · exact ⟨Char.toUpper c, _, by rw [if_pos ha, if_neg (by simp)], h2⟩
  · exact ⟨c, _, by rw [if_neg ha], h1⟩

theorem good_of_head {v : LC} {c : Char} {t : LC} (hv : v = c :: t)
    (hc : isWs c = false) : (pyStrip v).isEmpty = false := by
  subst hv
  simpa [List.isEmpty_eq_false] using pyStrip_ne_nil_of_head hc

theorem variantMatch_inv {line g vt cls : LC}
    (h : variantMatch line = some (g, vt, cls)) :
    g = line.takeWhile isGeneCh ∧ g ≠ []
      ∧ ∃ s, matchVariantTok s = some (vt, cls) := by
  simp only [variantMatch] at h
  split at h
  · simp at h
  · split at h
    · simp at h
    · rename_i hg hs
      cases hm : matchVariantTok
          ((line.drop (line.takeWhile isGeneCh).length).drop
            ((line.drop (line.takeWhile isGeneCh).length).takeWhile isVarSep).length) with
      | some p =>
        obtain ⟨v2, c2⟩ := p
        rw [hm] at h
        simp only [Option.some.injEq, Prod.mk.injEq] at h
        obtain ⟨h1, h2, h3⟩ := h
        subst h1; subst h2; subst h3
        exact ⟨rfl, by simpa using hg, _, hm⟩
      | none => rw [hm] at h; simp at h

theorem extractLine_good {rawLine k v : LC}
    (h : (k, v) ∈ extractLine rawLine) : (pyStrip v).isEmpty = false := by
  by_cases he : (pyStrip rawLine).isEmpty = true
  · simp [extractLine, he] at h
  · have he2 : (pyStrip rawLine).isEmpty = false := by simpa using he
    cases hkv : kvMatch (pyStrip rawLine) with
    | some p =>
      obtain ⟨k0, v0⟩ := p
      simp only [extractLine, he2, Bool.false_eq_true, if_false, hkv,
        List.mem_singleton, Prod.mk.injEq] at h
      obtain ⟨rfl, rfl⟩ := h
      have hlast : ∀ c ∈ (pyStrip rawLine).getLast?, isWs c = false :=
        fun c hc => pyStrip_getLast_not_ws hc
      obtain ⟨c, t, hv, hc⟩ := kvMatchAux_good hlast hkv
      exact good_of_head hv hc
    | none =>
      cases hvar : variantMatch (pyStrip rawLine) with
      | some p =>
        obtain ⟨g, vt, cls⟩ := p
        simp only [extractLine, he2, Bool.false_eq_true, if_false, hkv, hvar,
          List.mem_cons, List.not_mem_nil, or_false, Prod.mk.injEq] at h
        obtain ⟨hg0, hne, s, hm⟩ := variantMatch_inv hvar
        rcases h with ⟨rfl, rfl⟩ | ⟨rfl, rfl⟩ | ⟨rfl, rfl⟩
        · cases hgc : v with
          | nil => exact absurd hgc hne
          | cons c t =>
            have hcm : c ∈ List.takeWhile isGeneCh (pyStrip rawLine) := by
              rw [← hg0, hgc]
              exact List.mem_cons_self c t
            exact good_of_head rfl (not_ws_of_gene (List.mem_takeWhile_imp hcm))
        · obtain ⟨⟨c, t, hv, hc⟩, _⟩ := matchVariantTok_good hm
          exact good_of_head hv hc
        · obtain ⟨_, c, t, hv, hc1, hc2⟩ := matchVariantTok_good hm
          obtain ⟨c2, t2, hv2, hc3⟩ := pyTitle_good hv hc1 hc2
          exact good_of_head hv2 hc3
      | none =>
        by_cases hkw : (_VARIANT_KEYWORDS.any fun kw =>
            isSubList kw (pyLower (pyStrip rawLine))) = true
        · simp only [extractLine, he2, Bool.false_eq_true, if_false, hkv, hvar,
            hkw, if_true, List.mem_singleton, Prod.mk.injEq] at h
          obtain ⟨rfl, rfl⟩ := h
          rw [pyStrip_idem]
          exact he2
        · simp only [extractLine, he2, Bool.false_eq_true, if_false, hkv, hvar,
            Bool.not_eq_true] at h
          rw [if_neg (by simpa using hkw)] at h
          simp at h

theorem extract_good {lines : List LC} {k v : LC}
    (h : (k, v) ∈ _extract_key_values_from_lines lines) :
    (pyStrip v).isEmpty = false := by
  induction lines with
  | nil => simp [_extract_key_values_from_lines] at h
  | cons l rest ih =>
    rw [_extract_key_values_from_lines] at h
    rcases List.mem_append.mp h with h1 | h1
    · exact extractLine_good h1
    · exact ih h1

theorem assocLookup_eq_none_iff {k : LC} : ∀ {l : List (LC × LC)},
    assocLookup k l = none ↔ k ∉ l.map Prod.fst := by
  intro l
  induction l with
  | nil => simp [assocLookup]
  | cons p rest ih =>
    rw [assocLookup]
    by_cases hp : k = p.1
    · rw [if_pos (by cases p; exact hp)]
      simp [hp]
    · rw [if_neg (by cases p; exact hp)]
      simp [ih, hp]

theorem map_fst_updateAssoc (l : List (LC × LC)) (k v : LC) :
    (updateAssoc l k v).map Prod.fst = l.map Prod.fst := by
  induction l with
  | nil => rfl
  | cons p rest ih =>
    simp only [updateAssoc, List.map_cons] at ih ⊢
    by_cases hp : p.1 = k
    · simp only [if_pos hp]
      rw [ih, ← hp]
    · simp only [if_neg hp]
      rw [ih]

theorem assocLookup_update_self {k v : LC} : ∀ {l : List (LC × LC)} {ex : LC},
    assocLookup k l = some ex → assocLookup k (updateAssoc l k v) = some v := by
  intro l
  induction l with
  | nil => intro ex h; simp [assocLookup] at h
  | cons p rest ih =>
    intro ex h
    rw [assocLookup] at h
    simp only [updateAssoc, List.map_cons]
    by_cases hp : p.1 = k
    · rw [if_pos hp, assocLookup, if_pos rfl]
    · rw [if_neg hp, assocLookup, if_neg (fun he => hp he.symm)]
      rw [if_neg (fun he => hp he.symm)] at h
      exact ih h

theorem updateAssoc_values {p : LC × LC} {l : List (LC × LC)} {k v : LC}
    (h : p ∈ updateAssoc l k v) : p = (k, v) ∨ p ∈ l := by
  rw [updateAssoc] at h
  obtain ⟨q, hq, hqe⟩ := List.mem_map.mp h
  by_cases hk : q.1 = k
  · rw [if_pos hk] at hqe; exact Or.inl hqe.symm
  · rw [if_neg hk] at hqe; exact Or.inr (hqe ▸ hq)

theorem mergeAux_invariant : ∀ {pairs acc : List (LC × LC)},
    (acc.map Prod.fst).Nodup → (∀ p ∈ acc, p.2 ≠ []) →
    ((mergeAux acc pairs).map Prod.fst).Nodup
      ∧ ∀ p ∈ mergeAux acc pairs, p.2 ≠ [] := by
  intro pairs
  induction pairs with
  | nil => intro acc h1 h2; exact ⟨h1, h2⟩
  | cons kv rest ih =>
    intro acc h1 h2
    obtain ⟨k, v⟩ := kv
    rw [mergeAux]
    by_cases hv : (pyStrip v).isEmpty = true
    · rw [if_pos hv]
      exact ih h1 h2
    · rw [if_neg hv]
      split
      next ex hl =>
        by_cases hsub : isSubList (pyLower (pyStrip v)) (pyLower ex) = true
        · rw [if_pos hsub]
          exact ih h1 h2
        · rw [if_neg hsub]
          apply ih
          · rw [map_fst_updateAssoc]; exact h1
          · intro p hp
            rcases updateAssoc_values hp with rfl | hp2
            · simp
            · exact h2 p hp2
      next hl =>
        apply ih
        · rw [List.map_append]
          rw [List.nodup_append]
          refine ⟨h1, by simp, ?_⟩
          intro x hx hx2
          simp only [List.map_cons, List.map_nil, List.mem_singleton] at hx2
          subst hx2
          exact assocLookup_eq_none_iff.mp hl hx
        · intro p hp
          rcases List.mem_append.mp hp with hp2 | hp2
          · exact h2 p hp2
          · simp only [List.mem_singleton] at hp2
            subst hp2
            simpa [List.isEmpty_eq_false] using hv

/-- Claim C8: in the report returned by `parse_report_text` the keys
are pairwise distinct and every value is a non-empty string (pairs
whose value strips to the empty string are dropped while merging). -/
theorem parse_report_key_values_invariant (text : LC) :
    (((parse_report_text text).key_values.map Prod.fst).Nodup)
    ∧ ∀ p ∈ (parse_report_text text).key_values, p.2 ≠ [] :=
  mergeAux_invariant List.nodup_nil (by intro p hp; simp at hp)

theorem parse_report_key_values_invariant_witness :
    ((((parse_report_text (("Gene: BRCA1\nGene: BRCA1").toList)).key_values.map
        Prod.fst).Nodup))
    ∧ (("Gene").toList, ("BRCA1").toList).2 ≠ [] :=
  ⟨(parse_report_key_values_invariant (("Gene: BRCA1\nGene: BRCA1").toList)).1,
   (parse_report_key_values_invariant (("Gene: BRCA1\nGene: BRCA1").toList)).2
     ((("Gene").toList, ("BRCA1").toList)) (by decide)⟩

/-- Spec-side description of "each key exactly once, in first-seen
order": keep the first occurrence of each element, deleting the later
duplicates. -/
def firstDedup : List LC → List LC
  | [] => []
  | k :: ks => k :: firstDedup (ks.filter (fun x => decide (x ≠ k)))
termination_by l => l.length
decreasing_by
  simp only [List.length_cons]
  exact Nat.lt_succ_of_le (List.length_filter_le _ _)

theorem mergeAux_keys : ∀ {pairs acc : List (LC × LC)},
    (∀ p ∈ pairs, (pyStrip p.2).isEmpty = false) →
    (mergeAux acc pairs).map Prod.fst
      = acc.map Prod.fst
        ++ firstDedup ((pairs.map (fun p => _normalise_key p.1)).filter
            (fun x => decide (x ∉ acc.map Prod.fst))) := by
  intro pairs
  induction pairs with
  | nil =>
    intro acc hgood
    rw [mergeAux]
    simp only [List.map_nil, List.filter_nil]
    rw [firstDedup]
    simp
  | cons kv rest ih =>
    intro acc hgood
    obtain ⟨k, v⟩ := kv
    have hv : (pyStrip v).isEmpty = false := hgood (k, v) (by simp)
    rw [mergeAux, if_neg (by simp [hv])]
    have hgood2 : ∀ p ∈ rest, (pyStrip p.2).isEmpty = false :=
      fun p hp => hgood p (List.mem_cons_of_mem _ hp)
    rw [List.map_cons, List.filter_cons]
    split
    next ex hl =>
      have hkmem : _normalise_key k ∈ acc.map Prod.fst := by
        by_contra hc
        have h0 := assocLookup_eq_none_iff.mpr hc
        rw [hl] at h0
        simp at h0
      rw [if_neg (c := decide (_normalise_key k ∉ acc.map Prod.fst) = true)
        (by simp [hkmem])]
      by_cases hsub : isSubList (pyLower (pyStrip v)) (pyLower ex) = true
      · rw [if_pos hsub]
        exact ih hgood2
      · rw [if_neg hsub]
        rw [ih hgood2, map_fst_updateAssoc]
    next hl =>
      have hknot : _normalise_key k ∉ acc.map Prod.fst :=
        assocLookup_eq_none_iff.mp hl
      rw [if_pos (c := decide (_normalise_key k ∉ acc.map Prod.fst) = true)
        (by simp [hknot])]
      rw [ih hgood2]
      have hcong : (List.map (fun p => _normalise_key p.1) rest).filter
            (fun x => decide (x ∉ (acc ++ [(_normalise_key k, pyStrip v)]).map
              Prod.fst))
          = (List.map (fun p => _normalise_key p.1) rest).filter
            (fun x => decide (x ≠ _normalise_key k)
              && decide (x ∉ acc.map Prod.fst)) := by
        apply List.filter_congr
        intro x hx
        rw [List.map_append]
        by_cases h1 : x = _normalise_key k <;>
          by_cases h2 : x ∈ acc.map Prod.fst <;> simp [h1, h2]
      rw [hcong]
      rw [firstDedup, List.filter_filter, List.map_append]
      simp [List.append_assoc]

/-- Claim C2: merging the extracted pairs lists each normalized key
exactly once, in the order of that key's first occurrence in the
extracted pair sequence. -/
theorem merge_keys_first_seen_order (lines : List LC) :
    (_merge_key_value_pairs (_extract_key_values_from_lines lines)).map Prod.fst
      = firstDedup ((_extract_key_values_from_lines lines).map
          (fun p => _normalise_key p.1)) := by
  have hgood : ∀ p ∈ _extract_key_values_from_lines lines,
      (pyStrip p.2).isEmpty = false := by
    intro p hp
    exact extract_good (k := p.1) (by simpa using hp)
  have h := @mergeAux_keys (_extract_key_values_from_lines lines) [] hgood
  have hf : ((_extract_key_values_from_lines lines).map
        (fun p => _normalise_key p.1)).filter
        (fun x => decide (x ∉ ([] : List (LC × LC)).map Prod.fst))
      = (_extract_key_values_from_lines lines).map
        (fun p => _normalise_key p.1) := by
    apply List.filter_eq_self.mpr
    intro x hx
    simp
  rw [hf] at h
  simpa using h

theorem hasPre_refl : ∀ {n : LC}, hasPre n n = true := by
  intro n
  induction n with
  | nil => rfl
  | cons c t ih => simp [hasPre, ih]

theorem hasPre_append {t : LC} : ∀ {n h : LC},
    hasPre n h = true → hasPre n (h ++ t) = true := by
  intro n
  induction n with
  | nil => intro h _; rfl
  | cons c ns ih =>
    intro h hp
    cases h with
    | nil => simp [hasPre] at hp
    | cons h0 hs =>
      simp only [hasPre, Bool.and_eq_true] at hp
      simp only [List.cons_append, hasPre, Bool.and_eq_true]
      exact ⟨hp.1, ih hp.2⟩

theorem isSubList_self : ∀ {n : LC}, isSubList n n = true := by
  intro n
  cases n with
  | nil => rfl
  | cons c t => simp [isSubList, hasPre_refl]

theorem isSubList_append_right {n t : LC} : ∀ {h : LC},
    isSubList n h = true → isSubList n (h ++ t) = true := by
  intro h
  induction h with
  | nil =>
    intro hs
    cases n with
    | nil =>
      cases t with
      | nil => rfl
      | cons c ts => simp [isSubList, hasPre]
    | cons c ns => simp [isSubList, hasPre] at hs
  | cons c hs ih =>
    intro hsub
    simp only [isSubList, Bool.or_eq_true] at hsub
    rcases hsub with hp | hp
    · simp only [List.cons_append, isSubList, Bool.or_eq_true]
      exact Or.inl (hasPre_append hp)
    · simp only [List.cons_append, isSubList, Bool.or_eq_true]
      exact Or.inr (ih hp)

theorem isSubList_append_left {n t : LC} (h : isSubList n t = true) :
    ∀ {x : LC}, isSubList n (x ++ t) = true := by
  intro x
  induction x with
  | nil => simpa using h
  | cons c xs ih =>
    simp only [List.cons_append, isSubList, Bool.or_eq_true]
    exact Or.inr ih

theorem assocLookup_update_ne {l : List (LC × LC)} {k k2 v : LC}
    (h : k ≠ k2) : assocLookup k (updateAssoc l k2 v) = assocLookup k l := by
  induction l with
  | nil => rfl
  | cons p rest ih =>
    simp only [updateAssoc, List.map_cons]
    by_cases hp : p.1 = k2
    · rw [if_pos hp, assocLookup, if_neg h, assocLookup,
        if_neg (by rw [hp]; exact h)]
      exact ih
    · rw [if_neg hp, assocLookup, assocLookup]
      by_cases hk : k = p.1
      · rw [if_pos hk, if_pos hk]
      · rw [if_neg hk, if_neg hk]
        exact ih

theorem assocLookup_append_some {l2 : List (LC × LC)} {k ex : LC} :
    ∀ {l : List (LC × LC)}, assocLookup k l = some ex →
      assocLookup k (l ++ l2) = some ex := by
  intro l
  induction l with
  | nil => intro h; simp [assocLookup] at h
  | cons p rest ih =>
    intro h
    rw [assocLookup] at h
    rw [List.cons_append, assocLookup]
    split at h
    · rw [if_pos (by assumption)]; exact h
    · rw [if_neg (by assumption)]; exact ih h

theorem assocLookup_append_self {k v : LC} : ∀ {l : List (LC × LC)},
    assocLookup k l = none → assocLookup k (l ++ [(k, v)]) = some v := by
  intro l
  induction l with
  | nil => simp [assocLookup]
  | cons p rest ih =>
    intro h
    rw [assocLookup] at h
    rw [List.cons_append, assocLookup]
    split at h
    · simp at h
    · rw [if_neg (by assumption)]; exact ih h

theorem mergeAux_lookup_extend (pairs : List (LC × LC)) :
    ∀ {acc : List (LC × LC)} {k ex : LC},
    assocLookup k acc = some ex →
    ∃ t, assocLookup k (mergeAux acc pairs) = some (ex ++ t) := by
  induction pairs with
  | nil =>
    intro acc k ex h
    exact ⟨[], by rw [mergeAux]; simpa using h⟩
  | cons kv rest ih =>
    intro acc k ex h
    obtain ⟨k2, v2⟩ := kv
    rw [mergeAux]
    by_cases hv : (pyStrip v2).isEmpty = true
    · rw [if_pos hv]; exact ih h
    · rw [if_neg hv]
      split
      next ex2 hl =>
        by_cases hsub : isSubList (pyLower (pyStrip v2)) (pyLower ex2) = true
        · rw [if_pos hsub]; exact ih h
        · rw [if_neg hsub]
          by_cases hk : k = _normalise_key k2
          · subst hk
            rw [hl] at h
            cases h
            obtain ⟨t2, h2⟩ := ih (assocLookup_update_self hl)
            exact ⟨("; ").toList ++ pyStrip v2 ++ t2, by
              rw [h2]; simp [List.append_assoc]⟩
          · exact ih (by rw [assocLookup_update_ne hk]; exact h)
      next hl =>
        apply ih
        exact assocLookup_append_some h

theorem isSubList_lower_embed (n x y t : LC) :
    isSubList (pyLower n) (pyLower (x ++ (y ++ (n ++ t)))) = true := by
  simp only [pyLower, List.map_append]
  exact isSubList_append_left (isSubList_append_left
    (isSubList_append_right isSubList_self))

theorem mergeAux_contains : ∀ {pairs acc : List (LC × LC)} {k v : LC},
    (k, v) ∈ pairs → (pyStrip v).isEmpty = false →
    ∃ mv, assocLookup (_normalise_key k) (mergeAux acc pairs) = some mv
      ∧ isSubList (pyLower (pyStrip v)) (pyLower mv) = true := by
  intro pairs
  induction pairs with
  | nil => intro acc k v hmem _; simp at hmem
  | cons kv rest ih =>
    intro acc k v hmem hval
    obtain ⟨k2, v2⟩ := kv
    rw [mergeAux]
    rcases List.mem_cons.mp hmem with heq | hmem2
    · rw [Prod.mk.injEq] at heq
      obtain ⟨rfl, rfl⟩ := heq
      rw [if_neg (by simp [hval])]
      split
      next ex hl =>
        by_cases hsub : isSubList (pyLower (pyStrip v)) (pyLower ex) = true
        · rw [if_pos hsub]
          obtain ⟨t, ht⟩ := mergeAux_lookup_extend rest hl
          refine ⟨ex ++ t, ht, ?_⟩
          simp only [pyLower, List.map_append]
          exact isSubList_append_right hsub
        · rw [if_neg hsub]
          have hupd := assocLookup_update_self
            (v := ex ++ ("; ").toList ++ pyStrip v) hl
          obtain ⟨t, ht⟩ := mergeAux_lookup_extend rest hupd
          refine ⟨_, ht, ?_⟩
          have hshape : ex ++ ("; ").toList ++ pyStrip v ++ t
              = ex ++ (("; ").toList ++ (pyStrip v ++ t)) := by
            simp [List.append_assoc]
          rw [hshape]
          exact isSubList_lower_embed _ _ _ _
      next hl =>
        have hap := assocLookup_append_self (v := pyStrip v) hl
        obtain ⟨t, ht⟩ := mergeAux_lookup_extend rest hap
        refine ⟨_, ht, ?_⟩
        simp only [pyLower, List.map_append]
        exact isSubList_append_right isSubList_self
    · by_cases hv2e : (pyStrip v2).isEmpty = true
      · rw [if_pos hv2e]; exact ih hmem2 hval
      · rw [if_neg hv2e]
        split
        next ex hl =>
          by_cases hsub : isSubList (pyLower (pyStrip v2)) (pyLower ex) = true
          · rw [if_pos hsub]; exact ih hmem2 hval
          · rw [if_neg hsub]; exact ih hmem2 hval
        next hl => exact ih hmem2 hval

/-- Claim C1 counterexample: the lines `Gene: BRCA1` and `Gene: BRCA`
extract two distinct values for the normalized key `Gene`, yet the
merged value is `BRCA1`, not the claimed concatenation `BRCA1; BRCA`:
the second value is dropped because its lowercased form is a substring
of the lowercased accumulated value. -/
theorem merge_concat_distinct_counterexample :
    _extract_key_values_from_lines
        [("Gene: BRCA1").toList, ("Gene: BRCA").toList]
      = [(("Gene").toList, ("BRCA1").toList), (("Gene").toList, ("BRCA").toList)]
    ∧ ("BRCA1").toList ≠ ("BRCA").toList
    ∧ _merge_key_value_pairs (_extract_key_values_from_lines
        [("Gene: BRCA1").toList, ("Gene: BRCA").toList])
      = [(("Gene").toList, ("BRCA1").toList)]
    ∧ ("BRCA1").toList ≠ ("BRCA1; BRCA").toList := by
  refine ⟨by decide, by decide, by decide, by decide⟩

/-- Claim C1 (amended): merging appends a repeated value (joined with
`; `) only when its lowercased stripped form is not already a
substring of the lowercased accumulated value; consequently every
extracted value is contained, case-insensitively, in the merged value
of its normalized key. -/
theorem merge_value_containment (lines : List LC) (k v : LC)
    (hmem : (k, v) ∈ _extract_key_values_from_lines lines) :
    ∃ mv, assocLookup (_normalise_key k)
        (_merge_key_value_pairs (_extract_key_values_from_lines lines))
          = some mv
      ∧ isSubList (pyLower (pyStrip v)) (pyLower mv) = true :=
  mergeAux_contains hmem (extract_good hmem)

theorem merge_value_containment_witness :
    ∃ mv, assocLookup (_normalise_key (("Gene").toList))
        (_merge_key_value_pairs (_extract_key_values_from_lines
          [("Gene: BRCA1").toList, ("Gene: BRCA").toList])) = some mv
      ∧ isSubList (pyLower (pyStrip (("BRCA").toList))) (pyLower mv) = true :=
  merge_value_containment [("Gene: BRCA1").toList, ("Gene: BRCA").toList]
    (("Gene").toList) (("BRCA").toList) (by decide)

/-- Claim C4 counterexample: the line `BRCA1: c.68G pathogenic`
matches the gene/variant/classification pattern, but the parser emits
one key/value pair for it, not the claimed three, because the
key-separator-value rule matches first. -/
theorem variant_line_three_pairs_counterexample :
    variantMatch (pyStrip (("BRCA1: c.68G pathogenic").toList))
      = some (("BRCA1").toList, ("c.68G").toList, ("pathogenic").toList)
    ∧ extractLine (("BRCA1: c.68G pathogenic").toList)
      = [(("BRCA1").toList, ("c.68G pathogenic").toList)]
    ∧ extractLine (("BRCA1: c.68G pathogenic").toList)
      ≠ [(("Gene").toList, ("BRCA1").toList),
         (("Variant").toList, ("c.68G").toList),
         (("Classification").toList, pyTitle (("pathogenic").toList))] := by
  refine ⟨by decide, by decide, by decide⟩

/-- Claim C4 (amended): for every line that does not match the
key-separator-value pattern and does match the
gene/variant/classification pattern, the parser emits exactly the
three pairs `(Gene, gene)`, `(Variant, variant)` and
`(Classification, classification in title case)`. -/
theorem variant_line_three_pairs (rawLine g v c : LC)
    (hkv : kvMatch (pyStrip rawLine) = none)
    (hvar : variantMatch (pyStrip rawLine) = some (g, v, c)) :
    extractLine rawLine
      = [(("Gene").toList, g), (("Variant").toList, v),
         (("Classification").toList, pyTitle c)] := by
  have hne : (pyStrip rawLine).isEmpty = false := by
    cases hs : pyStrip rawLine with
    | nil =>
      rw [hs] at hvar
      simp [variantMatch, List.takeWhile] at hvar
    | cons a t => simp
  simp [extractLine, hne, hkv, hvar]

theorem variant_line_three_pairs_witness :
    extractLine (("BRCA1 c.68G>A pathogenic").toList)
      = [(("Gene").toList, ("BRCA1").toList),
         (("Variant").toList, ("c.68G>A").toList),
         (("Classification").toList, pyTitle (("pathogenic").toList))] :=
  variant_line_three_pairs (("BRCA1 c.68G>A pathogenic").toList)
    (("BRCA1").toList) (("c.68G>A").toList) (("pathogenic").toList)
    (by decide) (by decide)

theorem splitAux_all_ws (cur t : LC) :
    (∀ l ∈ splitAux cur t, ∀ c ∈ l, isWs c = true)
      ↔ ((∀ c ∈ cur, isWs c = true) ∧ ∀ c ∈ t, isWs c = true) := by
  induction cur, t using splitAux.induct with
  | case1 cur => simp [splitAux]
  | case2 cur rest2 hr =>
    rw [splitAux, if_pos hr]
    have h2 : rest2 = [] := by simpa using hr
    subst h2
    simp [isWs]
  | case3 cur rest2 hr ih =>
    rw [splitAux, if_neg hr]
    simp only [List.mem_cons, forall_eq_or_imp]
    rw [show (∀ l ∈ splitAux [] rest2, ∀ c ∈ l, isWs c = true)
        ↔ ((∀ c ∈ ([] : LC), isWs c = true) ∧ ∀ c ∈ rest2, isWs c = true)
      from ih]
    simp [isWs]
  | case4 cur rest hne hr =>
    rw [splitAux, if_pos hr]
    · have h2 : rest = [] := by simpa using hr
      subst h2
      simp [isWs]
    · exact fun rest2 he => absurd he (hne rest2)
  | case5 cur rest hne hr ih =>
    rw [splitAux, if_neg hr]
    · simp only [List.mem_cons, forall_eq_or_imp]
      rw [show (∀ l ∈ splitAux [] rest, ∀ c ∈ l, isWs c = true)
          ↔ ((∀ c ∈ ([] : LC), isWs c = true) ∧ ∀ c ∈ rest, isWs c = true)
        from ih]
      simp [isWs]
    · exact fun rest2 he => absurd he (hne rest2)
  | case6 cur rest hr =>
    rw [splitAux, if_pos hr]
    have h2 : rest = [] := by simpa using hr
    subst h2
    simp [isWs]
  | case7 cur rest hr ih =>
    rw [splitAux, if_neg hr]
    simp only [List.mem_cons, forall_eq_or_imp]
    rw [show (∀ l ∈ splitAux [] rest, ∀ c ∈ l, isWs c = true)
        ↔ ((∀ c ∈ ([] : LC), isWs c = true) ∧ ∀ c ∈ rest, isWs c = true)
      from ih]
    simp [isWs]
  | case8 cur c rest h1 h2 h3 ih =>
    rw [splitAux]
    rw [show (∀ l ∈ splitAux (c :: cur) rest, ∀ c2 ∈ l, isWs c2 = true)
        ↔ ((∀ c2 ∈ c :: cur, isWs c2 = true) ∧ ∀ c2 ∈ rest, isWs c2 = true)
      from ih]
    constructor
    · rintro ⟨hcur, hrest⟩
      refine ⟨fun c2 hc2 => hcur c2 (List.mem_cons_of_mem _ hc2), ?_⟩
      intro c2 hc2
      rcases List.mem_cons.mp hc2 with rfl | hc3
      · exact hcur c2 (List.mem_cons_self _ _)
      · exact hrest c2 hc3
    · rintro ⟨hcur, hrest⟩
      refine ⟨?_, fun c2 hc2 => hrest c2 (List.mem_cons_of_mem _ hc2)⟩
      intro c2 hc2
      rcases List.mem_cons.mp hc2 with rfl | hc3
      · exact hrest c2 (List.mem_cons_self _ _)
      · exact hcur c2 hc3
    exact h1
    exact h2
    exact h3

theorem pySplitlines_all_ws (text : LC) :
    (∀ l ∈ pySplitlines text, ∀ c ∈ l, isWs c = true)
      ↔ ∀ c ∈ text, isWs c = true := by
  rw [pySplitlines]
  by_cases he : text.isEmpty = true
  · rw [if_pos he]
    have h2 : text = [] := by simpa using he
    subst h2
    simp
  · rw [if_neg he, splitAux_all_ws]
    simp

theorem intercalate_head?_of_ne_nil (s x : LC) (xs : List LC) (hx : x ≠ []) :
    (List.intercalate s (x :: xs)).head? = x.head? := by
  cases xs with
  | nil => simp [List.intercalate, List.intersperse]
  | cons y ys =>
    rw [intercalate_cons_of_ne_nil _ _ (by simp : (y :: ys : List LC) ≠ [])]
    cases x with
    | nil => exact absurd rfl hx
    | cons c t => simp

theorem intercalate_getLast?_mem (s : LC) : ∀ {xs : List LC}, xs ≠ [] →
    (∀ e ∈ xs, e ≠ []) →
    ∃ e ∈ xs, (List.intercalate s xs).getLast? = e.getLast? := by
  intro xs
  induction xs with
  | nil => intro h _; exact absurd rfl h
  | cons x rest ih =>
    intro _ hne
    cases rest with
    | nil => exact ⟨x, by simp, by simp [List.intercalate, List.intersperse]⟩
    | cons y ys =>
      obtain ⟨e, hemem, hlast⟩ :=
        ih (by simp) (fun e he => hne e (List.mem_cons_of_mem _ he))
      refine ⟨e, List.mem_cons_of_mem _ hemem, ?_⟩
      rw [intercalate_cons_of_ne_nil _ _ (by simp : (y :: ys : List LC) ≠ [])]
      have hicne : List.intercalate s (y :: ys) ≠ [] := by
        have hy := hne y (by simp)
        have hh := intercalate_head?_of_ne_nil s y ys hy
        cases y with
        | nil => exact absurd rfl hy
        | cons c t =>
          intro hnil
          rw [hnil] at hh
          simp at hh
      rw [List.append_assoc,
        List.getLast?_append_of_ne_nil _
          (by simp [hicne] : s ++ List.intercalate s (y :: ys) ≠ []),
        List.getLast?_append_of_ne_nil _ hicne]
      exact hlast

theorem stripped_head_not_ws {x : LC} (h : pyStrip x = x) :
    ∀ c ∈ x.head?, isWs c = false := by
  intro c hc
  cases hx : x with
  | nil => rw [hx] at hc; simp at hc
  | cons c0 t0 =>
    rw [hx] at hc
    simp only [List.head?_cons, Option.mem_def, Option.some.injEq] at hc
    subst hc
    rw [hx] at h
    exact pyStrip_head_not_ws h

theorem stripped_getLast_not_ws {x : LC} (h : pyStrip x = x) :
    ∀ c ∈ x.getLast?, isWs c = false := by
  intro c hc
  apply pyStrip_getLast_not_ws (s := x)
  rw [h]
  exact hc

theorem merge_single_notes {cl : LC} (h1 : pyStrip cl = cl) (h2 : cl ≠ []) :
    _merge_key_value_pairs [(("Notes").toList, cl)]
      = [(("Notes").toList, cl)] := by
  rw [_merge_key_value_pairs, mergeAux]
  rw [if_neg (by simp [h1, h2])]
  split
  next ex hl => simp [assocLookup] at hl
  next hl =>
    rw [mergeAux]
    rw [h1]
    have hnk : _normalise_key (("Notes").toList) = ("Notes").toList := by decide
    rw [hnk]
    simp

/-- Claim C9: for a text from which no rule extracts any pair, the
parser returns exactly one pair filing the whitespace-stripped lines,
joined by single spaces, under `Notes` when the text has any
non-whitespace character, and no pairs at all when the text is empty
or whitespace-only. -/
theorem parse_fallback_notes (text : LC)
    (hempty : _extract_key_values_from_lines (pySplitlines text) = []) :
    ((text.any fun c => !(isWs c)) = true →
      (parse_report_text text).key_values
        = [(("Notes").toList,
            List.intercalate ((" ").toList)
              (((pySplitlines text).map pyStrip).filter
                (fun l => !(l.isEmpty))))])
    ∧ ((text.any fun c => !(isWs c)) = false →
      (parse_report_text text).key_values = []) := by
  have hxs : (((pySplitlines text).map pyStrip).filter (fun l => !(l.isEmpty)))
        = [] ↔ ∀ c ∈ text, isWs c = true := by
    rw [List.filter_eq_nil_iff]
    constructor
    · intro h
      rw [← pySplitlines_all_ws]
      intro l hl c hc
      have h2 := h (pyStrip l) (List.mem_map_of_mem _ hl)
      have h3 : pyStrip l = [] := by simpa using h2
      exact pyStrip_eq_nil_iff.mp h3 c hc
    · intro h e he
      obtain ⟨l, hl, rfl⟩ := List.mem_map.mp he
      have h3 : pyStrip l = [] := pyStrip_eq_nil_iff.mpr
        (fun c hc => (pySplitlines_all_ws text).mpr h l hl c hc)
      simp [h3]
  constructor
  · intro hany
    have hne : ¬ ∀ c ∈ text, isWs c = true := by
      obtain ⟨c, hc, hw⟩ := List.any_eq_true.mp hany
      intro hall
      rw [hall c hc] at hw
      simp at hw
    have hxsne : (((pySplitlines text).map pyStrip).filter
        (fun l => !(l.isEmpty))) ≠ [] := fun h => hne (hxs.mp h)
    cases hxc : ((pySplitlines text).map pyStrip).filter (fun l => !(l.isEmpty))
      with
    | nil => exact absurd hxc hxsne
    | cons x rest =>
      have hmemne : ∀ e ∈ x :: rest, e ≠ [] := by
        intro e he
        have hin : e ∈ ((pySplitlines text).map pyStrip).filter
            (fun l => !(l.isEmpty)) := by rw [hxc]; exact he
        have := (List.mem_filter.mp hin).2
        simpa using this
      have hmemstrip : ∀ e ∈ x :: rest, pyStrip e = e := by
        intro e he
        have hin : e ∈ ((pySplitlines text).map pyStrip).filter
            (fun l => !(l.isEmpty)) := by rw [hxc]; exact he
        obtain ⟨l, _, rfl⟩ := List.mem_map.mp (List.mem_filter.mp hin).1
        exact pyStrip_idem l
      have hstripCl : pyStrip (List.intercalate ((" ").toList) (x :: rest))
          = List.intercalate ((" ").toList) (x :: rest) := by
        apply pyStrip_eq_self
        · rw [intercalate_head?_of_ne_nil _ x rest (hmemne x (by simp))]
          exact stripped_head_not_ws (hmemstrip x (by simp))
        · obtain ⟨e, hemem, hlast⟩ :=
            intercalate_getLast?_mem ((" ").toList) (by simp) hmemne
          rw [hlast]
          exact stripped_getLast_not_ws (hmemstrip e hemem)
      have hclne : List.intercalate ((" ").toList) (x :: rest) ≠ [] := by
        have hh := intercalate_head?_of_ne_nil ((" ").toList) x rest
          (hmemne x (by simp))
        cases hx2 : x with
        | nil => exact absurd hx2 (hmemne x (by simp))
        | cons c0 t0 =>
          intro hnil
          rw [hx2] at hh
          rw [hnil] at hh
          simp at hh
      have hparse : (parse_report_text text).key_values
          = _merge_key_value_pairs [(("Notes").toList,
              List.intercalate ((" ").toList) (x :: rest))] := by
        simp only [parse_report_text, hempty, List.isEmpty_nil, if_true]
        rw [hxc]
        rw [if_neg (by simp only [List.isEmpty_eq_true]; exact hclne)]
        simp
      rw [hparse, merge_single_notes hstripCl hclne, ← hxc]
  · intro hnone
    have hall : ∀ c ∈ text, isWs c = true := by
      intro c hc
      by_contra hcw
      have h2 : (text.any fun c => !(isWs c)) = true :=
        List.any_eq_true.mpr ⟨c, hc, by simpa using hcw⟩
      rw [hnone] at h2
      simp at h2
    have hxsnil := hxs.mpr hall
    simp only [parse_report_text, hempty, List.isEmpty_nil, if_true]
    rw [hxsnil]
    simp [List.intercalate]
    rfl

theorem parse_fallback_notes_witness :
    (parse_report_text (("hello world").toList)).key_values
      = [(("Notes").toList,
          List.intercalate ((" ").toList)
            (((pySplitlines (("hello world").toList)).map pyStrip).filter
              (fun l => !(l.isEmpty))))]
    ∧ (parse_report_text (("  \n ").toList)).key_values = [] :=
  ⟨(parse_fallback_notes (("hello world").toList) (by decide)).1 (by decide),
   (parse_fallback_notes (("  \n ").toList) (by decide)).2 (by decide)⟩
